import Mathlib

/-!
# Verification of the sweep-line interval-to-resource assignment

Shallow embedding of `src/src/sweep_line.rs`: the core `assign` function
(event construction, lexicographic event sort, and the sweep with a
min-extracting free-id pool).

Modelling choices:
* the generic coordinate type `T::Native` (any of the 8/16/32/64-bit
  signed/unsigned integers, all totally ordered) is modelled as `Int`;
* nullable chunked-array elements become `Option Int`;
* resource ids (`u32` in the source) are modelled as `Nat`: the counter
  `max_id` only grows by one per arrival event, so wraparound would need
  more than `2^32` intervals, outside every stated claim;
* the `BinaryHeap<Reverse<u32>>` is a min-extracting multiset of ids; it
  is modelled as a `List Nat` where `push` conses and `pop` removes one
  occurrence of the minimum (`popMin`);
* `events.sort_unstable()` sorts by the derived lexicographic order on
  `(time, event_type, index)` tuples; since all events are pairwise
  distinct the sorted result is unique, and we use `List.insertionSort`
  with that same order;
* `Vec` indexing `assignments[idx]` is modelled with `List.set` /
  `List.getD`; the in-bounds claim is proved separately.
-/

namespace SweepLine

/-- An event, mirroring the Rust tuple `(T::Native, i8, usize)`:
`(time, event_type, interval_index)`. -/
abbrev Event := Int × Nat × Nat

/-- The derived lexicographic (non-strict) order on event tuples used by
`events.sort_unstable()`. -/
def eventLE (a b : Event) : Prop :=
  a.1 < b.1 ∨ (a.1 = b.1 ∧ (a.2.1 < b.2.1 ∨ (a.2.1 = b.2.1 ∧ a.2.2 ≤ b.2.2)))

instance : DecidableRel eventLE := fun a b => by
  unfold eventLE; infer_instance

instance : IsTotal Event eventLE where
  total a b := by unfold eventLE; omega

instance : IsTrans Event eventLE where
  trans a b c := by unfold eventLE; omega

instance : IsAntisymm Event eventLE where
  antisymm a b := by
    unfold eventLE
    rcases a with ⟨t, ty, i⟩
    rcases b with ⟨t', ty', i'⟩
    simp only [Prod.mk.injEq]
    omega

/-- The event-construction loop of `assign`: iterate over the zipped
start/end iterators with a running index, skip pairs with a null
component, fail on `e < s`, and otherwise emit the arrival and departure
events for the interval. -/
def buildEvents (arrTy depTy : Nat) : Nat → List (Option Int × Option Int) →
    Except String (List Event)
  | _, [] => .ok []
  | i, (os, oe) :: rest =>
    match os, oe with
    | some s, some e =>
      if e < s then .error "End time before start time"
      else
        match buildEvents arrTy depTy (i + 1) rest with
        | .error msg => .error msg
        | .ok tail => .ok ((s, arrTy, i) :: (e, depTy, i) :: tail)
    | _, _ => buildEvents arrTy depTy (i + 1) rest

/-- Remove one occurrence of the minimum from a list: the model of
`BinaryHeap<Reverse<u32>>::pop`. -/
def popMin : List Nat → Option (Nat × List Nat)
  | [] => none
  | x :: xs =>
    match popMin xs with
    | none => some (x, xs)
    | some (m, rest) => if x ≤ m then some (x, xs) else some (m, x :: rest)

/-- The mutable state of the sweep loop in `assign`. -/
structure SweepState where
  assignments : List Nat
  free_rooms : List Nat
  max_id : Nat

/-- One iteration of the sweep loop of `assign`: an arrival pops the
minimum free id (minting `max_id + 1` when the pool is empty) and records
it; a departure pushes the interval's recorded id back into the pool. -/
def sweepStep (arrTy : Nat) (st : SweepState) (ev : Event) : SweepState :=
  if ev.2.1 = arrTy then
    match popMin st.free_rooms with
    | some (m, rest) =>
      { st with assignments := st.assignments.set ev.2.2 m, free_rooms := rest }
    | none =>
      { st with assignments := st.assignments.set ev.2.2 (st.max_id + 1),
                max_id := st.max_id + 1 }
  else
    { st with free_rooms := st.assignments.getD ev.2.2 0 :: st.free_rooms }

/-- The arrival event type: `if overlapping { (0i8, 1i8) } else { (1i8, 0i8) }`. -/
def arrT (overlapping : Bool) : Nat := if overlapping then 0 else 1

/-- The departure event type, the other component of the same tuple. -/
def depT (overlapping : Bool) : Nat := if overlapping then 1 else 0

/-- `events.sort_unstable()`: sort by the lexicographic tuple order. -/
def sortEvents (l : List Event) : List Event := List.insertionSort eventLE l

/-- Initial sweep state: `vec![0u32; n]`, empty heap, `max_id = 0`. -/
def initState (n : Nat) : SweepState := ⟨List.replicate n 0, [], 0⟩

/-- The sweep loop of `assign` over an (already sorted) event list. -/
def runSweep (arrTy n : Nat) (evs : List Event) : List Nat :=
  (evs.foldl (sweepStep arrTy) (initState n)).assignments

/-- The core algorithm `assign` of `src/src/sweep_line.rs`. -/
def assign (starts ends : List (Option Int)) (overlapping : Bool) :
    Except String (List Nat) :=
  match buildEvents (arrT overlapping) (depT overlapping) 0 (starts.zip ends) with
  | .error msg => .error msg
  | .ok events =>
    .ok (runSweep (arrT overlapping) starts.length (sortEvents events))

/-! Auxiliary notions used to state and prove the claims. -/

/-- The valid (non-null) intervals of a zipped input together with their
original positions: exactly the intervals that generate events. -/
def validTriples : Nat → List (Option Int × Option Int) → List (Nat × Int × Int)
  | _, [] => []
  | i, (some s, some e) :: rest => (i, s, e) :: validTriples (i + 1) rest
  | i, (_, _) :: rest => validTriples (i + 1) rest

/-- The arrival event a valid interval generates. -/
def arrEv (arrTy : Nat) (tr : Nat × Int × Int) : Event := (tr.2.1, arrTy, tr.1)

/-- The departure event a valid interval generates. -/
def depEv (depTy : Nat) (tr : Nat × Int × Int) : Event := (tr.2.2, depTy, tr.1)

/-- The flat event list generated by a list of valid intervals. -/
def eventsOf (arrTy depTy : Nat) : List (Nat × Int × Int) → List Event
  | [] => []
  | tr :: rest => arrEv arrTy tr :: depEv depTy tr :: eventsOf arrTy depTy rest

/-- Whether the valid interval `tr = (i, s, e)` is open at coordinate `t`
under the active overlapping policy: half-open `s ≤ t < e` when touching
intervals do not conflict, closed `s ≤ t ≤ e` when they do. -/
def openAt (overlapping : Bool) (t : Int) (tr : Nat × Int × Int) : Bool :=
  decide (tr.2.1 ≤ t) &&
    (if overlapping then decide (t ≤ tr.2.2) else decide (t < tr.2.2))

/-- The number of valid intervals simultaneously open at coordinate `t`
(the quantity whose maximum is the interval-graph chromatic number). -/
def openCount (starts ends : List (Option Int)) (overlapping : Bool) (t : Int) : Nat :=
  (validTriples 0 (starts.zip ends)).countP (openAt overlapping t)

/-- The number of distinct resource ids in an output; per the spec a
resource id is `≥ 1`, the sentinel `0` of skipped intervals is not one. -/
def distinctIds (out : List Nat) : Nat := (out.filter (fun v => v != 0)).dedup.length

/-- Abstract tally of the sweep over one event: the second component is the
running excess of arrival events over departure events, the first the
running maximum of that excess (clamped at 0). -/
def tally (arrTy : Nat) (p : Nat × Int) (ev : Event) : Nat × Int :=
  if ev.2.1 = arrTy then (max p.1 (p.2 + 1).toNat, p.2 + 1) else (p.1, p.2 - 1)

/-- The signed excess of arrival events over the other events of a list. -/
def excess (arrTy : Nat) (l : List Event) : Int :=
  (l.countP (fun ev => ev.2.1 == arrTy) : Int) -
    (l.countP (fun ev => ev.2.1 != arrTy) : Int)

/-- Shift the interval index of an event to make room for a position
inserted at index `k`. -/
def shiftEv (k : Nat) (ev : Event) : Event :=
  (ev.1, ev.2.1, if k ≤ ev.2.2 then ev.2.2 + 1 else ev.2.2)

/-- The cut of the sorted event stream just after coordinate `t`: with
`overlapping = false` all events with time `≤ t`; with `overlapping = true`
all events with time `< t` together with the arrival events (type `0`) at
time `t`.  In both cases this is a downward-closed set in the event order,
so it is a prefix of the sorted stream. -/
def cutPred (overlapping : Bool) (t : Int) (ev : Event) : Bool :=
  if overlapping then decide (ev.1 < t) || (decide (ev.1 = t) && (ev.2.1 == 0))
  else decide (ev.1 ≤ t)

/-! ### Sanity checks of the embedding (mirroring `test_overlap_logic`) -/

example : assign [some 10, some 20] [some 20, some 30] false = .ok [1, 1] := rfl

example : assign [some 10, some 20] [some 20, some 30] true = .ok [1, 2] := rfl

example : assign [some 5, some 5, some 5, some 5] [some 9, some 8, some 5, some 5] false
    = .ok [0, 0, 1, 2] := rfl

example : assign [some 5] [some 5] false = .ok [0] := rfl

example : assign [some 1, some 5, some 2] [some 9, some 3, some 7] false
    = .error "End time before start time" := rfl

/-! ### Basic lemmas about the free pool -/

theorem popMin_cons (x : Nat) (xs : List Nat) :
    popMin (x :: xs) =
      match popMin xs with
      | none => some (x, xs)
      | some (m, rest) => if x ≤ m then some (x, xs) else some (m, x :: rest) := rfl

theorem popMin_eq_none_iff (l : List Nat) : popMin l = none ↔ l = [] := by
  cases l with
  | nil => simp [popMin]
  | cons x xs =>
    rw [popMin_cons]
    cases h : popMin xs with
    | none => simp
    | some p =>
      obtain ⟨m, rest⟩ := p
      dsimp only
      split <;> simp

theorem popMin_spec {l : List Nat} {m : Nat} {rest : List Nat}
    (h : popMin l = some (m, rest)) : l.Perm (m :: rest) ∧ ∀ x ∈ l, m ≤ x := by
  induction l generalizing m rest with
  | nil => simp [popMin] at h
  | cons x xs ih =>
    rw [popMin_cons] at h
    cases h' : popMin xs with
    | none =>
      rw [h'] at h
      have hxs : xs = [] := (popMin_eq_none_iff xs).mp h'
      obtain ⟨rfl, rfl⟩ : x = m ∧ xs = rest := by
        simpa using h
      subst hxs
      exact ⟨List.Perm.refl _, by simp⟩
    | some p =>
      obtain ⟨m', rest'⟩ := p
      rw [h'] at h
      obtain ⟨hperm, hmin⟩ := ih h'
      dsimp only at h
      by_cases hle : x ≤ m'
      · rw [if_pos hle] at h
        obtain ⟨rfl, rfl⟩ : x = m ∧ xs = rest := by simpa using h
        refine ⟨List.Perm.refl _, ?_⟩
        intro y hy
        rcases List.mem_cons.mp hy with rfl | hy
        · exact le_refl _
        · exact le_trans hle (hmin y hy)
      · rw [if_neg hle] at h
        obtain ⟨rfl, rfl⟩ : m' = m ∧ x :: rest' = rest := by simpa using h
        constructor
        · exact (hperm.cons x).trans (List.Perm.swap _ x _)
        · intro y hy
          rcases List.mem_cons.mp hy with rfl | hy
          · omega
          · exact hmin y hy

theorem popMin_length {l : List Nat} {m : Nat} {rest : List Nat}
    (h : popMin l = some (m, rest)) : l.length = rest.length + 1 := by
  have := (popMin_spec h).1.length_eq
  simpa using this

/-! ### Shape of the sweep output -/

theorem sweepStep_assignments_length (arrTy : Nat) (st : SweepState) (ev : Event) :
    ((sweepStep arrTy st ev).assignments).length = st.assignments.length := by
  unfold sweepStep
  split
  · cases h : popMin st.free_rooms with
    | none => simp
    | some p => obtain ⟨m, rest⟩ := p; simp
  · rfl

theorem foldl_sweepStep_length (arrTy : Nat) (evs : List Event) :
    ∀ st : SweepState,
      ((evs.foldl (sweepStep arrTy) st).assignments).length = st.assignments.length := by
  induction evs with
  | nil => intro st; rfl
  | cons ev rest ih =>
    intro st
    rw [List.foldl_cons, ih, sweepStep_assignments_length]

theorem runSweep_length (arrTy n : Nat) (evs : List Event) :
    (runSweep arrTy n evs).length = n := by
  unfold runSweep
  rw [foldl_sweepStep_length]
  simp [initState]

/-! ### Equations and error analysis for `buildEvents` -/

theorem buildEvents_nil (a d i : Nat) : buildEvents a d i [] = .ok [] := rfl

theorem buildEvents_cons_some (a d i : Nat) (s e : Int)
    (rest : List (Option Int × Option Int)) :
    buildEvents a d i ((some s, some e) :: rest) =
      if e < s then .error "End time before start time"
      else
        match buildEvents a d (i + 1) rest with
        | .error msg => .error msg
        | .ok tail => .ok ((s, a, i) :: (e, d, i) :: tail) := rfl

theorem buildEvents_cons_none_left (a d i : Nat) (oe : Option Int)
    (rest : List (Option Int × Option Int)) :
    buildEvents a d i ((none, oe) :: rest) = buildEvents a d (i + 1) rest := rfl

theorem buildEvents_cons_none_right (a d i : Nat) (os : Option Int)
    (rest : List (Option Int × Option Int)) :
    buildEvents a d i ((os, none) :: rest) = buildEvents a d (i + 1) rest := by
  cases os <;> rfl

theorem buildEvents_error_msg {a d : Nat} {ps : List (Option Int × Option Int)} :
    ∀ {i : Nat} {msg : String}, buildEvents a d i ps = .error msg →
      msg = "End time before start time" := by
  induction ps with
  | nil => intro i msg h; rw [buildEvents_nil] at h; exact absurd h (by simp)
  | cons p rest ih =>
    intro i msg h
    obtain ⟨os, oe⟩ := p
    cases os with
    | none => exact ih (by rwa [buildEvents_cons_none_left] at h)
    | some s =>
      cases oe with
      | none => exact ih (by rwa [buildEvents_cons_none_right] at h)
      | some e =>
        rw [buildEvents_cons_some] at h
        by_cases hlt : e < s
        · rw [if_pos hlt] at h
          simpa using h.symm
        · rw [if_neg hlt] at h
          cases hrec : buildEvents a d (i + 1) rest with
          | error m =>
            rw [hrec] at h
            have hm : m = msg := by simpa using h
            exact hm ▸ ih hrec
          | ok tail => rw [hrec] at h; exact absurd h (by simp)

theorem buildEvents_error_iff {a d : Nat} (ps : List (Option Int × Option Int)) :
    ∀ i : Nat, (buildEvents a d i ps = .error "End time before start time" ↔
      ∃ j s e, ps.get? j = some (some s, some e) ∧ e < s) := by
  induction ps with
  | nil => intro i; rw [buildEvents_nil]; simp
  | cons p rest ih =>
    intro i
    obtain ⟨os, oe⟩ := p
    cases os with
    | none =>
      rw [buildEvents_cons_none_left, ih (i + 1)]
      constructor
      · rintro ⟨j, s, e, hj, hlt⟩
        exact ⟨j + 1, s, e, by simpa using hj, hlt⟩
      · rintro ⟨j, s, e, hj, hlt⟩
        cases j with
        | zero => exact absurd hj (by simp)
        | succ j => exact ⟨j, s, e, by simpa using hj, hlt⟩
    | some s' =>
      cases oe with
      | none =>
        rw [buildEvents_cons_none_right, ih (i + 1)]
        constructor
        · rintro ⟨j, s, e, hj, hlt⟩
          exact ⟨j + 1, s, e, by simpa using hj, hlt⟩
        · rintro ⟨j, s, e, hj, hlt⟩
          cases j with
          | zero => exact absurd hj (by simp)
          | succ j => exact ⟨j, s, e, by simpa using hj, hlt⟩
      | some e' =>
        rw [buildEvents_cons_some]
        by_cases hlt : e' < s'
        · rw [if_pos hlt]
          constructor
          · intro _; exact ⟨0, s', e', by simp, hlt⟩
          · intro _; rfl
        · rw [if_neg hlt]
          cases hrec : buildEvents a d (i + 1) rest with
          | error m =>
            have hm := buildEvents_error_msg hrec
            subst hm
            constructor
            · intro _
              obtain ⟨j, s, e, hj, h2⟩ := (ih (i + 1)).mp hrec
              exact ⟨j + 1, s, e, by simpa using hj, h2⟩
            · intro _; rfl
          | ok tail =>
            constructor
            · intro h; exact absurd h (by simp)
            · rintro ⟨j, s, e, hj, h2⟩
              cases j with
              | zero =>
                have : s' = s ∧ e' = e := by simpa using hj
                obtain ⟨rfl, rfl⟩ := this
                exact absurd h2 hlt
              | succ j =>
                have : buildEvents a d (i + 1) rest
                    = .error "End time before start time" :=
                  (ih (i + 1)).mpr ⟨j, s, e, by simpa using hj, h2⟩
                rw [hrec] at this
                exact absurd this (by simp)

theorem zip_eq_zip_take (s : List (Option Int)) (e : List (Option Int)) :
    s.zip e = s.zip (e.take s.length) := by
  induction s generalizing e with
  | nil => simp
  | cons a s ih =>
    cases e with
    | nil => simp
    | cons b e =>
      show (a, b) :: s.zip e = (a, b) :: s.zip (e.take s.length)
      rw [ih]

theorem assign_eq_error {starts ends : List (Option Int)} {ov : Bool} {msg : String}
    (h : buildEvents (arrT ov) (depT ov) 0 (starts.zip ends) = .error msg) :
    assign starts ends ov = .error msg := by
  unfold assign; rw [h]

theorem assign_eq_ok {starts ends : List (Option Int)} {ov : Bool} {evs : List Event}
    (h : buildEvents (arrT ov) (depT ov) 0 (starts.zip ends) = .ok evs) :
    assign starts ends ov = .ok (runSweep (arrT ov) starts.length (sortEvents evs)) := by
  unfold assign; rw [h]

theorem assign_ok_inv {starts ends : List (Option Int)} {ov : Bool} {out : List Nat}
    (h : assign starts ends ov = .ok out) :
    ∃ evs, buildEvents (arrT ov) (depT ov) 0 (starts.zip ends) = .ok evs ∧
      out = runSweep (arrT ov) starts.length (sortEvents evs) := by
  cases hb : buildEvents (arrT ov) (depT ov) 0 (starts.zip ends) with
  | error msg =>
    rw [assign_eq_error hb] at h
    exact absurd h (by simp)
  | ok evs =>
    rw [assign_eq_ok hb] at h
    exact ⟨evs, rfl, (Except.ok.inj h).symm⟩

/-! ### Events: index bounds, distinctness, and the sorted order -/

theorem buildEvents_idx_bound {a d : Nat} {ps : List (Option Int × Option Int)} :
    ∀ {i : Nat} {evs : List Event}, buildEvents a d i ps = .ok evs →
      ∀ ev ∈ evs, i ≤ ev.2.2 ∧ ev.2.2 < i + ps.length := by
  induction ps with
  | nil =>
    intro i evs h ev hev
    rw [buildEvents_nil] at h
    obtain rfl : ([] : List Event) = evs := Except.ok.inj h
    exact absurd hev (by simp)
  | cons p rest ih =>
    intro i evs h ev hev
    obtain ⟨os, oe⟩ := p
    have hlen : ((os, oe) :: rest).length = rest.length + 1 := rfl
    cases os with
    | none =>
      rw [buildEvents_cons_none_left] at h
      have := ih h ev hev
      omega
    | some s =>
      cases oe with
      | none =>
        rw [buildEvents_cons_none_right] at h
        have := ih h ev hev
        omega
      | some e =>
        rw [buildEvents_cons_some] at h
        by_cases hlt : e < s
        · rw [if_pos hlt] at h; exact absurd h (by simp)
        · rw [if_neg hlt] at h
          cases hrec : buildEvents a d (i + 1) rest with
          | error m => rw [hrec] at h; exact absurd h (by simp)
          | ok tail =>
            rw [hrec] at h
            obtain rfl : (s, a, i) :: (e, d, i) :: tail = evs := by simpa using h
            rcases List.mem_cons.mp hev with rfl | hev
            · exact ⟨le_refl _, by show i < i + (rest.length + 1); omega⟩
            rcases List.mem_cons.mp hev with rfl | hev
            · exact ⟨le_refl _, by show i < i + (rest.length + 1); omega⟩
            · have := ih hrec ev hev
              omega

theorem buildEvents_nodup {a d : Nat} (hne : a ≠ d) {ps : List (Option Int × Option Int)} :
    ∀ {i : Nat} {evs : List Event}, buildEvents a d i ps = .ok evs → evs.Nodup := by
  induction ps with
  | nil =>
    intro i evs h
    rw [buildEvents_nil] at h
    obtain rfl : ([] : List Event) = evs := Except.ok.inj h
    exact List.nodup_nil
  | cons p rest ih =>
    intro i evs h
    obtain ⟨os, oe⟩ := p
    cases os with
    | none => rw [buildEvents_cons_none_left] at h; exact ih h
    | some s =>
      cases oe with
      | none => rw [buildEvents_cons_none_right] at h; exact ih h
      | some e =>
        rw [buildEvents_cons_some] at h
        by_cases hlt : e < s
        · rw [if_pos hlt] at h; exact absurd h (by simp)
        · rw [if_neg hlt] at h
          cases hrec : buildEvents a d (i + 1) rest with
          | error m => rw [hrec] at h; exact absurd h (by simp)
          | ok tail =>
            rw [hrec] at h
            obtain rfl : (s, a, i) :: (e, d, i) :: tail = evs := by simpa using h
            have htail := ih hrec
            have hbound := buildEvents_idx_bound hrec
            refine List.nodup_cons.mpr ⟨?_, List.nodup_cons.mpr ⟨?_, htail⟩⟩
            · intro hmem
              rcases List.mem_cons.mp hmem with heq | hmem
              · exact hne (congrArg (fun ev : Event => ev.2.1) heq)
              · have h1 : i + 1 ≤ i := (hbound _ hmem).1
                omega
            · intro hmem
              have h1 : i + 1 ≤ i := (hbound _ hmem).1
              omega

theorem sortEvents_perm (l : List Event) : (sortEvents l).Perm l :=
  List.perm_insertionSort eventLE l

theorem sortEvents_sorted (l : List Event) : List.Sorted eventLE (sortEvents l) :=
  List.sorted_insertionSort eventLE l

/-! ### Claim theorems: concrete evaluations and error analysis -/

/-- C4: on `starts = [10, 20]`, `ends = [20, 30]` the code returns
`[1, 1]` with `overlapping = false` (the room is reused at the touching
boundary) and `[1, 2]` with `overlapping = true` (touching counts as
overlap, so a new room is required). -/
theorem claim_C4_touching_examples :
    assign [some 10, some 20] [some 20, some 30] false = .ok [1, 1] ∧
    assign [some 10, some 20] [some 20, some 30] true = .ok [1, 2] :=
  ⟨rfl, rfl⟩

/-- C1, evaluated at the failing input: with `overlapping = false` on
`starts = [5, 5, 5, 5]`, `ends = [9, 8, 5, 5]` the code returns
`[0, 0, 1, 2]`, so the two distinct valid intervals `0 = [5, 9)` and
`1 = [5, 8)` receive the same output id `0` although
`max(start_0, start_1) < min(end_0, end_1)` is true: the claimed
no-overlap invariant fails on the code.  (The zero-length intervals `2`
and `3` push the still-sentinel id `0` into the free pool because, with
`overlapping = false`, their departure events sort before their own
arrival events.) -/
theorem claim_C1_failing_input :
    assign [some 5, some 5, some 5, some 5] [some 9, some 8, some 5, some 5] false
      = .ok [0, 0, 1, 2] ∧ max (5 : Int) 5 < min 9 8 :=
  ⟨rfl, by norm_num⟩

/-- C6, evaluated at the failing input: the valid (non-null, `end ≥ start`)
zero-length interval `[5, 5]` with `overlapping = false` receives the
sentinel id `0` instead of a positive resource id, because its departure
event sorts before its own arrival event and pushes the still-unassigned
`output[0] = 0` into the free pool. -/
theorem claim_C6_failing_input :
    assign [some 5] [some 5] false = .ok [0] := rfl

/-- C9, counterexample: the code performs no length check at all — on the
unequal-length input `starts = [0, 1]`, `ends = [5]` the call does not
raise any error, it zips the inputs (truncating to the shorter) and
produces the output `[1, 0]`. -/
theorem claim_C9_counterexample :
    assign [some 0, some 1] [some 5] false = .ok [1, 0] := rfl

/-- C9, amended: when the two input sequences differ in length no error is
raised; the core zips the two sequences element-wise (so the computation
equals the one on `ends` truncated to the length of `starts`) and any
produced output has the length of the `starts` sequence, positions beyond
the zipped prefix keeping the sentinel `0`. -/
theorem claim_C9_amended_no_length_check (starts ends : List (Option Int)) (ov : Bool) :
    assign starts ends ov = assign starts (ends.take starts.length) ov ∧
    ∀ out, assign starts ends ov = .ok out → out.length = starts.length := by
  constructor
  · unfold assign
    rw [← zip_eq_zip_take]
  · intro out h
    obtain ⟨evs, -, rfl⟩ := assign_ok_inv h
    exact runSweep_length _ _ _

/-- Witness for the amended C9 at a concrete unequal-length input. -/
theorem claim_C9_amended_witness :
    assign [some 0, some 1] [some 5] false
      = assign [some 0, some 1] (List.take 2 [some 5]) false ∧
    ([1, 0] : List Nat).length = 2 :=
  ⟨(claim_C9_amended_no_length_check [some 0, some 1] [some 5] false).1,
    (claim_C9_amended_no_length_check [some 0, some 1] [some 5] false).2 [1, 0] rfl⟩

/-- C5: the call fails with the invalid-interval error exactly when some
interval has both endpoints present with `end < start`; `Except` being
all-or-nothing, no partial output is produced in that case, and when no
such interval exists this error is not raised. -/
theorem claim_C5_invalid_interval_error (starts ends : List (Option Int)) (ov : Bool) :
    (∃ i s e, starts.get? i = some (some s) ∧ ends.get? i = some (some e) ∧ e < s) ↔
      assign starts ends ov = .error "End time before start time" := by
  have hzip : ∀ (j : Nat) (s e : Int),
      (starts.zip ends).get? j = some (some s, some e) ↔
        starts.get? j = some (some s) ∧ ends.get? j = some (some e) := by
    intro j s e
    exact List.get?_zip_eq_some starts ends (some s, some e) j
  constructor
  · rintro ⟨i, s, e, h1, h2, h3⟩
    exact assign_eq_error
      ((buildEvents_error_iff _ 0).mpr ⟨i, s, e, (hzip i s e).mpr ⟨h1, h2⟩, h3⟩)
  · intro h
    cases hb : buildEvents (arrT ov) (depT ov) 0 (starts.zip ends) with
    | error msg =>
      have hm := buildEvents_error_msg hb
      subst hm
      obtain ⟨j, s, e, hj, hlt⟩ := (buildEvents_error_iff _ 0).mp hb
      exact ⟨j, s, e, ((hzip j s e).mp hj).1, ((hzip j s e).mp hj).2, hlt⟩
    | ok evs =>
      rw [assign_eq_ok hb] at h
      exact absurd h (by simp)

/-! ### Null intervals: no events, untouched output slots -/

theorem buildEvents_idx_valid {a d : Nat} {ps : List (Option Int × Option Int)} :
    ∀ {i0 : Nat} {evs : List Event}, buildEvents a d i0 ps = .ok evs →
      ∀ ev ∈ evs, ∃ j s e, i0 + j = ev.2.2 ∧ ps.get? j = some (some s, some e) := by
  induction ps with
  | nil =>
    intro i0 evs h ev hev
    rw [buildEvents_nil] at h
    obtain rfl : ([] : List Event) = evs := Except.ok.inj h
    exact absurd hev (by simp)
  | cons p rest ih =>
    intro i0 evs h ev hev
    obtain ⟨os, oe⟩ := p
    cases os with
    | none =>
      rw [buildEvents_cons_none_left] at h
      obtain ⟨j, s, e, hj, hget⟩ := ih h ev hev
      exact ⟨j + 1, s, e, by omega, by simpa using hget⟩
    | some s' =>
      cases oe with
      | none =>
        rw [buildEvents_cons_none_right] at h
        obtain ⟨j, s, e, hj, hget⟩ := ih h ev hev
        exact ⟨j + 1, s, e, by omega, by simpa using hget⟩
      | some e' =>
        rw [buildEvents_cons_some] at h
        by_cases hlt : e' < s'
        · rw [if_pos hlt] at h; exact absurd h (by simp)
        · rw [if_neg hlt] at h
          cases hrec : buildEvents a d (i0 + 1) rest with
          | error m => rw [hrec] at h; exact absurd h (by simp)
          | ok tail =>
            rw [hrec] at h
            obtain rfl : (s', a, i0) :: (e', d, i0) :: tail = evs := by simpa using h
            rcases List.mem_cons.mp hev with rfl | hev
            · exact ⟨0, s', e', rfl, rfl⟩
            rcases List.mem_cons.mp hev with rfl | hev
            · exact ⟨0, s', e', rfl, rfl⟩
            · obtain ⟨j, s, e, hj, hget⟩ := ih hrec ev hev
              exact ⟨j + 1, s, e, by omega, by simpa using hget⟩

theorem foldl_sweepStep_get?_untouched (arrTy : Nat) (evs : List Event) :
    ∀ (st : SweepState) (i : Nat), (∀ ev ∈ evs, ev.2.2 ≠ i) →
      ((evs.foldl (sweepStep arrTy) st).assignments).get? i = st.assignments.get? i := by
  induction evs with
  | nil => intro st i _; rfl
  | cons ev rest ih =>
    intro st i hno
    rw [List.foldl_cons, ih _ i (fun e he => hno e (List.mem_cons_of_mem _ he))]
    have hne : ev.2.2 ≠ i := hno ev (List.mem_cons_self _ _)
    unfold sweepStep
    split
    · cases hpop : popMin st.free_rooms with
      | none => exact List.get?_set_ne _ _ hne
      | some p =>
        obtain ⟨m, rest'⟩ := p
        exact List.get?_set_ne _ _ hne
    · rfl

theorem get?_replicate_lt {n i : Nat} (h : i < n) :
    (List.replicate n (0 : Nat)).get? i = some 0 := by
  induction n generalizing i with
  | zero => omega
  | succ n ih =>
    cases i with
    | zero => rfl
    | succ i => exact ih (by omega)

/-! ### Inserting a null interval: shifting machinery for C8 -/

theorem insertIdx_replicate (n k : Nat) (h : k ≤ n) :
    (List.replicate n (0 : Nat)).insertIdx k 0 = List.replicate (n + 1) 0 := by
  induction k generalizing n with
  | zero => rfl
  | succ k ih =>
    cases n with
    | zero => omega
    | succ n =>
      rw [List.replicate_succ, List.insertIdx_succ_cons, ih n (by omega),
        ← List.replicate_succ]

theorem shiftEv_le_iff (k : Nat) (a b : Event) :
    eventLE (shiftEv k a) (shiftEv k b) ↔ eventLE a b := by
  obtain ⟨t, ty, i⟩ := a
  obtain ⟨t', ty', i'⟩ := b
  unfold shiftEv eventLE
  dsimp only
  split_ifs <;> omega

theorem orderedInsert_map_shiftEv (k : Nat) (a : Event) (l : List Event) :
    (l.map (shiftEv k)).orderedInsert eventLE (shiftEv k a)
      = (l.orderedInsert eventLE a).map (shiftEv k) := by
  induction l with
  | nil => rfl
  | cons b l ih =>
    rw [List.map_cons]
    by_cases h : eventLE a b
    · rw [List.orderedInsert_of_le _ _ ((shiftEv_le_iff k a b).mpr h),
        List.orderedInsert_of_le _ _ h]
      rfl
    · simp only [List.orderedInsert]
      rw [if_neg (fun hh => h ((shiftEv_le_iff k a b).mp hh)), if_neg h,
        List.map_cons, ih]

theorem sortEvents_map_shiftEv (k : Nat) (l : List Event) :
    sortEvents (l.map (shiftEv k)) = (sortEvents l).map (shiftEv k) := by
  induction l with
  | nil => rfl
  | cons a l ih =>
    show List.orderedInsert eventLE (shiftEv k a)
        (List.insertionSort eventLE (l.map (shiftEv k)))
      = (List.orderedInsert eventLE a (List.insertionSort eventLE l)).map (shiftEv k)
    rw [show List.insertionSort eventLE (l.map (shiftEv k))
        = sortEvents (l.map (shiftEv k)) from rfl, ih]
    exact orderedInsert_map_shiftEv k a (sortEvents l)

theorem set_insertIdx_shift (k v : Nat) :
    ∀ (A : List Nat) (i : Nat),
      (A.insertIdx k 0).set (if k ≤ i then i + 1 else i) v = (A.set i v).insertIdx k 0 := by
  induction k with
  | zero =>
    intro A i
    rw [if_pos (Nat.zero_le i)]
    rfl
  | succ k ih =>
    intro A i
    cases A with
    | nil => simp [List.insertIdx_succ_nil]
    | cons a A =>
      cases i with
      | zero =>
        rw [if_neg (by omega), List.insertIdx_succ_cons]
        show v :: List.insertIdx k 0 A = List.insertIdx (k + 1) 0 (v :: A)
        rw [List.insertIdx_succ_cons]
      | succ i =>
        have harith : (if k + 1 ≤ i + 1 then i + 1 + 1 else i + 1)
            = (if k ≤ i then i + 1 else i) + 1 := by
          split_ifs with h1 h2 h2 <;> omega
        rw [harith, List.insertIdx_succ_cons]
        show a :: (List.insertIdx k 0 A).set (if k ≤ i then i + 1 else i) v
          = List.insertIdx (k + 1) 0 (a :: A.set i v)
        rw [List.insertIdx_succ_cons, ih A i]

theorem getD_insertIdx_shift (k : Nat) :
    ∀ (A : List Nat) (i : Nat),
      (A.insertIdx k 0).getD (if k ≤ i then i + 1 else i) 0 = A.getD i 0 := by
  induction k with
  | zero =>
    intro A i
    rw [if_pos (Nat.zero_le i)]
    rfl
  | succ k ih =>
    intro A i
    cases A with
    | nil => simp [List.insertIdx_succ_nil]
    | cons a A =>
      cases i with
      | zero =>
        rw [if_neg (by omega), List.insertIdx_succ_cons]
        rfl
      | succ i =>
        have harith : (if k + 1 ≤ i + 1 then i + 1 + 1 else i + 1)
            = (if k ≤ i then i + 1 else i) + 1 := by
          split_ifs with h1 h2 h2 <;> omega
        rw [harith, List.insertIdx_succ_cons]
        show (List.insertIdx k 0 A).getD (if k ≤ i then i + 1 else i) 0 = A.getD i 0
        exact ih A i

theorem sweepStep_shift (arrTy k : Nat) (A pool : List Nat) (m : Nat) (ev : Event) :
    sweepStep arrTy ⟨A.insertIdx k 0, pool, m⟩ (shiftEv k ev) =
      ⟨((sweepStep arrTy ⟨A, pool, m⟩ ev).assignments).insertIdx k 0,
        (sweepStep arrTy ⟨A, pool, m⟩ ev).free_rooms,
        (sweepStep arrTy ⟨A, pool, m⟩ ev).max_id⟩ := by
  obtain ⟨t, ty, i⟩ := ev
  unfold sweepStep shiftEv
  dsimp only
  by_cases hty : ty = arrTy
  · rw [if_pos hty, if_pos hty]
    cases hpop : popMin pool with
    | none =>
      dsimp only
      rw [set_insertIdx_shift]
    | some p =>
      obtain ⟨mm, rest⟩ := p
      dsimp only
      rw [set_insertIdx_shift]
  · rw [if_neg hty, if_neg hty]
    dsimp only
    rw [getD_insertIdx_shift]

theorem foldl_sweepStep_shift (arrTy k : Nat) (evs : List Event) :
    ∀ (A pool : List Nat) (m : Nat),
      List.foldl (sweepStep arrTy) ⟨A.insertIdx k 0, pool, m⟩ (evs.map (shiftEv k))
        = ⟨((List.foldl (sweepStep arrTy) ⟨A, pool, m⟩ evs).assignments).insertIdx k 0,
            (List.foldl (sweepStep arrTy) ⟨A, pool, m⟩ evs).free_rooms,
            (List.foldl (sweepStep arrTy) ⟨A, pool, m⟩ evs).max_id⟩ := by
  induction evs with
  | nil => intro A pool m; rfl
  | cons ev rest ih =>
    intro A pool m
    rw [List.map_cons, List.foldl_cons, List.foldl_cons, sweepStep_shift]
    exact ih _ _ _

theorem zip_insertIdx (os oe : Option Int) :
    ∀ (k : Nat) (s e : List (Option Int)), k ≤ s.length → k ≤ e.length →
      (s.insertIdx k os).zip (e.insertIdx k oe) = (s.zip e).insertIdx k (os, oe) := by
  intro k
  induction k with
  | zero => intro s e _ _; rfl
  | succ k ih =>
    intro s e hs he
    cases s with
    | nil => exact absurd hs (by simp)
    | cons a s =>
      cases e with
      | nil => exact absurd he (by simp)
      | cons b e =>
        rw [List.insertIdx_succ_cons, List.insertIdx_succ_cons]
        show (a, b) :: (s.insertIdx k os).zip (e.insertIdx k oe)
          = ((a, b) :: s.zip e).insertIdx (k + 1) (os, oe)
        rw [List.insertIdx_succ_cons,
          ih s e (by simpa using hs) (by simpa using he)]

theorem buildEvents_succ_shift {a d : Nat} (zp : List (Option Int × Option Int)) :
    ∀ (i0 j : Nat), j ≤ i0 →
      buildEvents a d (i0 + 1) zp
        = Except.map (List.map (shiftEv j)) (buildEvents a d i0 zp) := by
  induction zp with
  | nil => intro i0 j _; rfl
  | cons p rest ih =>
    intro i0 j hj
    obtain ⟨os, oe⟩ := p
    cases os with
    | none =>
      rw [buildEvents_cons_none_left, buildEvents_cons_none_left]
      exact ih (i0 + 1) j (by omega)
    | some s =>
      cases oe with
      | none =>
        rw [buildEvents_cons_none_right, buildEvents_cons_none_right]
        exact ih (i0 + 1) j (by omega)
      | some e =>
        rw [buildEvents_cons_some, buildEvents_cons_some]
        by_cases hlt : e < s
        · rw [if_pos hlt, if_pos hlt]; rfl
        · rw [if_neg hlt, if_neg hlt, ih (i0 + 1) j (by omega)]
          cases hrec : buildEvents a d (i0 + 1) rest with
          | error m => rfl
          | ok tail =>
            simp only [Except.map, List.map_cons, shiftEv]
            rw [if_pos hj]

theorem buildEvents_insertIdx_null {a d : Nat} {os oe : Option Int}
    (hnull : os = none ∨ oe = none) :
    ∀ (k : Nat) (zp : List (Option Int × Option Int)) (i0 : Nat), k ≤ zp.length →
      buildEvents a d i0 (zp.insertIdx k (os, oe))
        = Except.map (List.map (shiftEv (i0 + k))) (buildEvents a d i0 zp) := by
  intro k
  induction k with
  | zero =>
    intro zp i0 _
    have hskip : buildEvents a d i0 ((os, oe) :: zp) = buildEvents a d (i0 + 1) zp := by
      rcases hnull with rfl | rfl
      · exact buildEvents_cons_none_left a d i0 oe zp
      · exact buildEvents_cons_none_right a d i0 os zp
    rw [List.insertIdx_zero, hskip]
    exact buildEvents_succ_shift zp i0 (i0 + 0) (by omega)
  | succ k ih =>
    intro zp i0 hk
    cases zp with
    | nil => exact absurd hk (by simp)
    | cons p rest =>
      rw [List.insertIdx_succ_cons]
      obtain ⟨os', oe'⟩ := p
      have hlen : k ≤ rest.length := by simpa using hk
      have harith : i0 + 1 + k = i0 + (k + 1) := by omega
      cases os' with
      | none =>
        rw [buildEvents_cons_none_left, buildEvents_cons_none_left,
          ih rest (i0 + 1) hlen, harith]
      | some s =>
        cases oe' with
        | none =>
          rw [buildEvents_cons_none_right, buildEvents_cons_none_right,
            ih rest (i0 + 1) hlen, harith]
        | some e =>
          rw [buildEvents_cons_some, buildEvents_cons_some]
          by_cases hlt : e < s
          · rw [if_pos hlt, if_pos hlt]; rfl
          · rw [if_neg hlt, if_neg hlt, ih rest (i0 + 1) hlen, harith]
            cases hrec : buildEvents a d (i0 + 1) rest with
            | error m => rfl
            | ok tail =>
              simp only [Except.map, List.map_cons, shiftEv]
              rw [if_neg (by omega)]

/-- C8: the output of a successful call has one id per input position —
its length is the length of the `starts` sequence; any interval with a
null start or null end yields the sentinel `0` at its position; and
inserting a null interval at any position `k` leaves the computation on
the other intervals untouched: the result is exactly the original output
with a `0` inserted at position `k`. -/
theorem claim_C8_order_null_passthrough (starts ends : List (Option Int)) (ov : Bool) :
    (∀ out, assign starts ends ov = .ok out → out.length = starts.length) ∧
    (∀ out i, assign starts ends ov = .ok out →
      starts.get? i = some none ∨ (i < starts.length ∧ ends.get? i = some none) →
      out.get? i = some 0) ∧
    (∀ k os oe, k ≤ starts.length → k ≤ ends.length → (os = none ∨ oe = none) →
      assign (starts.insertIdx k os) (ends.insertIdx k oe) ov
        = Except.map (fun out => out.insertIdx k 0) (assign starts ends ov)) := by
  refine ⟨?_, ?_, ?_⟩
  · intro out h
    obtain ⟨evs, -, rfl⟩ := assign_ok_inv h
    exact runSweep_length _ _ _
  · intro out i h hnull
    obtain ⟨evs, hb, rfl⟩ := assign_ok_inv h
    have hi : i < starts.length := by
      rcases hnull with h1 | h2
      · by_contra hge
        rw [List.get?_eq_none.mpr (by omega)] at h1
        exact absurd h1 (by simp)
      · exact h2.1
    have hnoev : ∀ ev ∈ sortEvents evs, ev.2.2 ≠ i := by
      intro ev hev hevi
      have hmem : ev ∈ evs := (sortEvents_perm evs).subset hev
      obtain ⟨j, s, e, hj, hget⟩ := buildEvents_idx_valid hb ev hmem
      have hji : j = i := by omega
      subst hji
      have hpair := (List.get?_zip_eq_some _ _ _ _).mp hget
      rcases hnull with h1 | h2
      · have h1' := hpair.1
        rw [h1] at h1'
        exact absurd h1' (by simp)
      · have h2' := hpair.2
        rw [h2.2] at h2'
        exact absurd h2' (by simp)
    unfold runSweep
    rw [foldl_sweepStep_get?_untouched _ _ _ _ hnoev]
    exact get?_replicate_lt hi
  · intro k os oe hk1 hk2 hnull
    have hz := zip_insertIdx os oe k starts ends hk1 hk2
    have hzl : k ≤ (starts.zip ends).length := by
      rw [List.length_zip]; omega
    have hbI := buildEvents_insertIdx_null (a := arrT ov) (d := depT ov)
      hnull k (starts.zip ends) 0 hzl
    rw [Nat.zero_add] at hbI
    cases hrec : buildEvents (arrT ov) (depT ov) 0 (starts.zip ends) with
    | error msg =>
      have hbI' : buildEvents (arrT ov) (depT ov) 0
          ((starts.insertIdx k os).zip (ends.insertIdx k oe)) = .error msg := by
        rw [hz, hbI, hrec]; rfl
      rw [assign_eq_error hbI', assign_eq_error hrec]
      rfl
    | ok evs =>
      have hbI' : buildEvents (arrT ov) (depT ov) 0
          ((starts.insertIdx k os).zip (ends.insertIdx k oe))
            = .ok (evs.map (shiftEv k)) := by
        rw [hz, hbI, hrec]; rfl
      rw [assign_eq_ok hbI', assign_eq_ok hrec,
        List.length_insertIdx k starts hk1, sortEvents_map_shiftEv]
      unfold runSweep initState
      rw [← insertIdx_replicate starts.length k hk1, foldl_sweepStep_shift]
      rfl

/-- Witness for C8: the three conjuncts at concrete inputs. -/
theorem claim_C8_order_null_passthrough_witness :
    ([1] : List Nat).length = [some (1 : Int)].length ∧
    ([0, 1] : List Nat).get? 0 = some 0 ∧
    assign (([some 1] : List (Option Int)).insertIdx 0 none)
        (([some 2] : List (Option Int)).insertIdx 0 none) false
      = Except.map (fun out => out.insertIdx 0 0) (assign [some 1] [some 2] false) :=
  ⟨(claim_C8_order_null_passthrough [some 1] [some 2] false).1 [1] rfl,
    (claim_C8_order_null_passthrough [none, some 1] [some 5, some 2] false).2.1
      [0, 1] 0 rfl (Or.inl rfl),
    (claim_C8_order_null_passthrough [some 1] [some 2] false).2.2 0 none none
      (Nat.zero_le _) (Nat.zero_le _) (Or.inl rfl)⟩

/-- C10: `assign` is total — it returns either an output vector or the
invalid-interval error — and every interval index carried by an event of
the sorted sweep stream (exactly the indices used to access
`assignments[idx]`) is strictly below the length of the `starts`
sequence, for any input lengths and null patterns. -/
theorem claim_C10_total_and_in_bounds (starts ends : List (Option Int)) (ov : Bool) :
    ((∃ out, assign starts ends ov = .ok out) ∨
      assign starts ends ov = .error "End time before start time") ∧
    ∀ evs, buildEvents (arrT ov) (depT ov) 0 (starts.zip ends) = .ok evs →
      ∀ ev ∈ sortEvents evs, ev.2.2 < starts.length := by
  constructor
  · cases hb : buildEvents (arrT ov) (depT ov) 0 (starts.zip ends) with
    | error msg =>
      right
      rw [assign_eq_error hb, buildEvents_error_msg hb]
    | ok evs => exact Or.inl ⟨_, assign_eq_ok hb⟩
  · intro evs hb ev hev
    have hmem : ev ∈ evs := (sortEvents_perm evs).subset hev
    have hidx := (buildEvents_idx_bound hb ev hmem).2
    have hz : (starts.zip ends).length ≤ starts.length := by
      rw [List.length_zip]
      exact min_le_left _ _
    omega

/-- Witness for C10 at a concrete input, with a concrete event of the
sorted stream. -/
theorem claim_C10_total_and_in_bounds_witness :
    ((∃ out, assign [some 10, some 20] [some 20, some 30] false = .ok out) ∨
      assign [some 10, some 20] [some 20, some 30] false
        = .error "End time before start time") ∧
    ((10 : Int), (1 : Nat), (0 : Nat)).2.2 < 2 :=
  ⟨(claim_C10_total_and_in_bounds [some 10, some 20] [some 20, some 30] false).1,
    (claim_C10_total_and_in_bounds [some 10, some 20] [some 20, some 30] false).2
      [(10, 1, 0), (20, 0, 0), (20, 1, 1), (30, 0, 1)] rfl (10, 1, 0) (by decide)⟩

/-- C3: one sweep step does exactly what the spec says: an arrival event
with a non-empty free pool pops and uses the minimum id of the pool; an
arrival with an empty pool increments the counter and uses the fresh
value; either way the chosen id is recorded at the event's interval
position; a departure event pushes the id recorded for its interval back
onto the free pool. -/
theorem claim_C3_sweep_step (arrTy : Nat) (st : SweepState) (ev : Event) :
    (ev.2.1 = arrTy → st.free_rooms ≠ [] →
      ∃ m rest, popMin st.free_rooms = some (m, rest) ∧
        m ∈ st.free_rooms ∧ (∀ x ∈ st.free_rooms, m ≤ x) ∧
        st.free_rooms.Perm (m :: rest) ∧
        sweepStep arrTy st ev =
          { st with assignments := st.assignments.set ev.2.2 m,
                    free_rooms := rest }) ∧
    (ev.2.1 = arrTy → st.free_rooms = [] →
      sweepStep arrTy st ev =
        { st with assignments := st.assignments.set ev.2.2 (st.max_id + 1),
                  max_id := st.max_id + 1 }) ∧
    (ev.2.1 ≠ arrTy →
      sweepStep arrTy st ev =
        { st with free_rooms := st.assignments.getD ev.2.2 0 :: st.free_rooms }) := by
  refine ⟨?_, ?_, ?_⟩
  · intro hty hne
    cases hpop : popMin st.free_rooms with
    | none => exact absurd ((popMin_eq_none_iff _).mp hpop) hne
    | some p =>
      obtain ⟨m, rest⟩ := p
      obtain ⟨hperm, hmin⟩ := popMin_spec hpop
      refine ⟨m, rest, rfl, hperm.mem_iff.mpr (List.mem_cons_self m rest),
        hmin, hperm, ?_⟩
      unfold sweepStep
      rw [if_pos hty, hpop]
  · intro hty hnil
    have hpop : popMin st.free_rooms = none := (popMin_eq_none_iff _).mpr hnil
    unfold sweepStep
    rw [if_pos hty, hpop]
  · intro hty
    unfold sweepStep
    rw [if_neg hty]

/-- Witness for C3: the three step behaviours at concrete states. -/
theorem claim_C3_sweep_step_witness :
    (∃ m rest, popMin [3, 2] = some (m, rest) ∧ m ∈ ([3, 2] : List Nat) ∧
      (∀ x ∈ ([3, 2] : List Nat), m ≤ x) ∧ List.Perm [3, 2] (m :: rest) ∧
      sweepStep 0 ⟨[0], [3, 2], 5⟩ (7, 0, 0) =
        { assignments := [0].set 0 m, free_rooms := rest, max_id := 5 }) ∧
    sweepStep 0 ⟨[0], [], 5⟩ (7, 0, 0) =
      { assignments := [0].set 0 6, free_rooms := [], max_id := 6 } ∧
    sweepStep 0 ⟨[4], [9], 5⟩ (7, 1, 0) =
      { assignments := [4], free_rooms := [4].getD 0 0 :: [9], max_id := 5 } :=
  ⟨(claim_C3_sweep_step 0 ⟨[0], [3, 2], 5⟩ (7, 0, 0)).1 rfl (by simp),
    (claim_C3_sweep_step 0 ⟨[0], [], 5⟩ (7, 0, 0)).2.1 rfl rfl,
    (claim_C3_sweep_step 0 ⟨[4], [9], 5⟩ (7, 1, 0)).2.2 (by simp)⟩

/-- C7: the computation is deterministic. The embedded `assign` is a pure
function, and the event sort is fully determined: the built events are
pairwise distinct (no two share time, kind and index), so any sorted
permutation of them is equal to the one the code uses. -/
theorem claim_C7_deterministic_sort (starts ends : List (Option Int)) (ov : Bool)
    (evs : List Event)
    (h : buildEvents (arrT ov) (depT ov) 0 (starts.zip ends) = .ok evs) :
    evs.Nodup ∧ (sortEvents evs).Perm evs ∧
    List.Sorted eventLE (sortEvents evs) ∧
    ∀ l', l'.Perm evs → List.Sorted eventLE l' → l' = sortEvents evs := by
  have hne : arrT ov ≠ depT ov := by cases ov <;> simp [arrT, depT]
  refine ⟨buildEvents_nodup hne h, sortEvents_perm evs, sortEvents_sorted evs, ?_⟩
  intro l' hperm hsort
  exact List.eq_of_perm_of_sorted (hperm.trans (sortEvents_perm evs).symm) hsort
    (sortEvents_sorted evs)

/-! ### C2: valid triples and the flat event list -/

theorem validTriples_nil (i : Nat) : validTriples i [] = [] := rfl

theorem validTriples_cons_some (i : Nat) (s e : Int)
    (rest : List (Option Int × Option Int)) :
    validTriples i ((some s, some e) :: rest) = (i, s, e) :: validTriples (i + 1) rest := rfl

theorem validTriples_cons_none_left (i : Nat) (oe : Option Int)
    (rest : List (Option Int × Option Int)) :
    validTriples i ((none, oe) :: rest) = validTriples (i + 1) rest := rfl

theorem validTriples_cons_none_right (i : Nat) (os : Option Int)
    (rest : List (Option Int × Option Int)) :
    validTriples i ((os, none) :: rest) = validTriples (i + 1) rest := by
  cases os <;> rfl

theorem validTriples_idx_ge {ps : List (Option Int × Option Int)} :
    ∀ {i : Nat}, ∀ tr ∈ validTriples i ps, i ≤ tr.1 := by
  induction ps with
  | nil => intro i tr htr; rw [validTriples_nil] at htr; exact absurd htr (by simp)
  | cons p rest ih =>
    intro i tr htr
    obtain ⟨os, oe⟩ := p
    cases os with
    | none =>
      rw [validTriples_cons_none_left] at htr
      have := ih tr htr
      omega
    | some s =>
      cases oe with
      | none =>
        rw [validTriples_cons_none_right] at htr
        have := ih tr htr
        omega
      | some e =>
        rw [validTriples_cons_some] at htr
        rcases List.mem_cons.mp htr with rfl | htr
        · exact le_refl _
        · have := ih tr htr
          omega

theorem validTriples_fst_nodup {ps : List (Option Int × Option Int)} :
    ∀ {i : Nat}, ((validTriples i ps).map Prod.fst).Nodup := by
  induction ps with
  | nil => intro i; rw [validTriples_nil]; exact List.nodup_nil
  | cons p rest ih =>
    intro i
    obtain ⟨os, oe⟩ := p
    cases os with
    | none => rw [validTriples_cons_none_left]; exact ih
    | some s =>
      cases oe with
      | none => rw [validTriples_cons_none_right]; exact ih
      | some e =>
        rw [validTriples_cons_some, List.map_cons]
        refine List.nodup_cons.mpr ⟨?_, ih⟩
        intro hmem
        obtain ⟨tr, htr, hfst⟩ := List.mem_map.mp hmem
        have := validTriples_idx_ge tr htr
        omega

theorem buildEvents_ok_eventsOf {a d : Nat} {ps : List (Option Int × Option Int)} :
    ∀ {i : Nat} {evs : List Event}, buildEvents a d i ps = .ok evs →
      evs = eventsOf a d (validTriples i ps) := by
  induction ps with
  | nil =>
    intro i evs h
    rw [buildEvents_nil] at h
    obtain rfl : ([] : List Event) = evs := Except.ok.inj h
    rfl
  | cons p rest ih =>
    intro i evs h
    obtain ⟨os, oe⟩ := p
    cases os with
    | none =>
      rw [buildEvents_cons_none_left] at h
      rw [validTriples_cons_none_left]
      exact ih h
    | some s =>
      cases oe with
      | none =>
        rw [buildEvents_cons_none_right] at h
        rw [validTriples_cons_none_right]
        exact ih h
      | some e =>
        rw [buildEvents_cons_some] at h
        by_cases hlt : e < s
        · rw [if_pos hlt] at h; exact absurd h (by simp)
        · rw [if_neg hlt] at h
          cases hrec : buildEvents a d (i + 1) rest with
          | error m => rw [hrec] at h; exact absurd h (by simp)
          | ok tail =>
            rw [hrec] at h
            obtain rfl : (s, a, i) :: (e, d, i) :: tail = evs := by simpa using h
            rw [validTriples_cons_some]
            show (s, a, i) :: (e, d, i) :: tail
              = arrEv a (i, s, e) :: depEv d (i, s, e)
                :: eventsOf a d (validTriples (i + 1) rest)
            rw [← ih hrec]
            rfl

theorem buildEvents_ok_valid {a d : Nat} {ps : List (Option Int × Option Int)} :
    ∀ {i : Nat} {evs : List Event}, buildEvents a d i ps = .ok evs →
      ∀ tr ∈ validTriples i ps, tr.2.1 ≤ tr.2.2 := by
  induction ps with
  | nil => intro i evs _ tr htr; rw [validTriples_nil] at htr; exact absurd htr (by simp)
  | cons p rest ih =>
    intro i evs h tr htr
    obtain ⟨os, oe⟩ := p
    cases os with
    | none =>
      rw [buildEvents_cons_none_left] at h
      rw [validTriples_cons_none_left] at htr
      exact ih h tr htr
    | some s =>
      cases oe with
      | none =>
        rw [buildEvents_cons_none_right] at h
        rw [validTriples_cons_none_right] at htr
        exact ih h tr htr
      | some e =>
        rw [buildEvents_cons_some] at h
        by_cases hlt : e < s
        · rw [if_pos hlt] at h; exact absurd h (by simp)
        · rw [if_neg hlt] at h
          cases hrec : buildEvents a d (i + 1) rest with
          | error m => rw [hrec] at h; exact absurd h (by simp)
          | ok tail =>
            rw [validTriples_cons_some] at htr
            rcases List.mem_cons.mp htr with rfl | htr
            · show s ≤ e; omega
            · exact ih hrec tr htr

theorem mem_eventsOf {a d : Nat} {ev : Event} :
    ∀ {trs : List (Nat × Int × Int)},
      ev ∈ eventsOf a d trs ↔ ∃ tr ∈ trs, ev = arrEv a tr ∨ ev = depEv d tr := by
  intro trs
  induction trs with
  | nil => simp [eventsOf]
  | cons tr rest ih =>
    show ev ∈ arrEv a tr :: depEv d tr :: eventsOf a d rest ↔ _
    simp only [List.mem_cons, ih]
    constructor
    · rintro (rfl | rfl | ⟨tr', htr', h⟩)
      · exact ⟨tr, Or.inl rfl, Or.inl rfl⟩
      · exact ⟨tr, Or.inl rfl, Or.inr rfl⟩
      · exact ⟨tr', Or.inr htr', h⟩
    · rintro ⟨tr', htr' | htr', h⟩
      · subst htr'
        rcases h with rfl | rfl
        · exact Or.inl rfl
        · exact Or.inr (Or.inl rfl)
      · exact Or.inr (Or.inr ⟨tr', htr', h⟩)

theorem filter_isArr_eventsOf {a d : Nat} (hne : a ≠ d) :
    ∀ trs : List (Nat × Int × Int),
      (eventsOf a d trs).filter (fun ev => ev.2.1 == a) = trs.map (arrEv a) := by
  intro trs
  induction trs with
  | nil => rfl
  | cons tr rest ih =>
    show List.filter (fun ev => ev.2.1 == a) (arrEv a tr :: depEv d tr :: eventsOf a d rest)
      = arrEv a tr :: rest.map (arrEv a)
    rw [List.filter_cons, List.filter_cons]
    have h1 : (((arrEv a tr).2.1 : Nat) == a) = true := by simp [arrEv]
    have h2 : (((depEv d tr).2.1 : Nat) == a) = false := by simp [depEv, Ne.symm hne]
    rw [h1, h2]
    simp [ih]

theorem excess_cons (a : Nat) (ev : Event) (l : List Event) :
    excess a (ev :: l) = (if ev.2.1 = a then 1 else -1) + excess a l := by
  unfold excess
  rw [List.countP_cons, List.countP_cons]
  by_cases h : ev.2.1 = a <;> simp [h] <;> push_cast <;> omega

theorem excess_append (a : Nat) (l1 l2 : List Event) :
    excess a (l1 ++ l2) = excess a l1 + excess a l2 := by
  unfold excess
  rw [List.countP_append, List.countP_append]
  push_cast
  ring

theorem countP_split {α : Type} (l : List α) (p q : α → Bool) :
    l.countP p = l.countP (fun x => p x && q x) + l.countP (fun x => p x && !q x) := by
  induction l with
  | nil => rfl
  | cons x l ih =>
    rw [List.countP_cons, List.countP_cons, List.countP_cons, ih]
    by_cases hp : p x <;> by_cases hq : q x <;> simp [hp, hq] <;> omega

theorem getD_zero_mem (l : List Nat) : ∀ i : Nat, l.getD i 0 = 0 ∨ l.getD i 0 ∈ l := by
  induction l with
  | nil => intro i; exact Or.inl rfl
  | cons a l ih =>
    intro i
    cases i with
    | zero => exact Or.inr (List.mem_cons_self _ _)
    | succ i =>
      rcases ih i with h | h
      · exact Or.inl h
      · exact Or.inr (List.mem_cons_of_mem _ h)

theorem get?_set_self {l : List Nat} {v : Nat} :
    ∀ {i : Nat}, i < l.length → (l.set i v).get? i = some v := by
  induction l with
  | nil => intro i h; exact absurd h (by simp)
  | cons a l ih =>
    intro i h
    cases i with
    | zero => rfl
    | succ i => exact ih (by simpa using h)

theorem eventLE_refl (a : Event) : eventLE a a := by
  unfold eventLE; omega

/-! ### C2: the final `max_id` is the running maximum of the event excess -/

theorem sweepStep_tally (arrTy : Nat) (st : SweepState) (ev : Event) (x : Int)
    (hlen : (st.free_rooms.length : Int) = (st.max_id : Int) - x)
    (hx : x ≤ (st.max_id : Int)) :
    (sweepStep arrTy st ev).max_id = (tally arrTy (st.max_id, x) ev).1 ∧
    ((sweepStep arrTy st ev).free_rooms.length : Int)
      = ((tally arrTy (st.max_id, x) ev).1 : Int) - (tally arrTy (st.max_id, x) ev).2 ∧
    (tally arrTy (st.max_id, x) ev).2 ≤ ((tally arrTy (st.max_id, x) ev).1 : Int) := by
  unfold sweepStep tally
  by_cases hty : ev.2.1 = arrTy
  · rw [if_pos hty, if_pos hty]
    cases hpop : popMin st.free_rooms with
    | none =>
      have hnil : st.free_rooms = [] := (popMin_eq_none_iff _).mp hpop
      rw [hnil] at hlen
      simp only [List.length_nil, Nat.cast_zero] at hlen
      have ht : (x + 1).toNat = st.max_id + 1 := by omega
      dsimp only
      rw [ht, Nat.max_eq_right (by omega)]
      refine ⟨rfl, ?_, by push_cast; omega⟩
      show ((st.free_rooms.length : Int)) = ((st.max_id + 1 : Nat) : Int) - (x + 1)
      rw [hnil]
      simp only [List.length_nil, Nat.cast_zero]
      push_cast
      omega
    | some p =>
      obtain ⟨m, rest⟩ := p
      have hlen' := popMin_length hpop
      have ht : (x + 1).toNat ≤ st.max_id := by omega
      dsimp only
      rw [Nat.max_eq_left ht]
      refine ⟨rfl, ?_, by omega⟩
      show ((rest.length : Int)) = ((st.max_id : Int)) - (x + 1)
      omega
  · rw [if_neg hty, if_neg hty]
    dsimp only
    refine ⟨rfl, ?_, by omega⟩
    show (((st.assignments.getD ev.2.2 0 :: st.free_rooms).length : Int))
      = ((st.max_id : Int)) - (x - 1)
    rw [List.length_cons]
    push_cast
    omega

theorem foldl_sweepStep_tally (arrTy : Nat) (evs : List Event) :
    ∀ (st : SweepState) (x : Int),
      (st.free_rooms.length : Int) = (st.max_id : Int) - x →
      x ≤ (st.max_id : Int) →
      (evs.foldl (sweepStep arrTy) st).max_id
        = (evs.foldl (tally arrTy) (st.max_id, x)).1 := by
  induction evs with
  | nil => intro st x _ _; rfl
  | cons ev rest ih =>
    intro st x hlen hx
    obtain ⟨h1, h2, h3⟩ := sweepStep_tally arrTy st ev x hlen hx
    rw [List.foldl_cons, List.foldl_cons]
    have hrec := ih (sweepStep arrTy st ev) (tally arrTy (st.max_id, x) ev).2
      (by rw [h1]; exact h2) (by rw [h1]; exact h3)
    rw [hrec, h1]

/-! ### C2: the nonzero output ids are exactly `1 .. max_id` -/

theorem foldl_sweepStep_ids (arrTy : Nat) :
    ∀ (evs : List Event) (st : SweepState),
      ((evs.filter (fun ev => ev.2.1 == arrTy)).map (fun ev => ev.2.2)).Nodup →
      (∀ ev ∈ evs, ev.2.1 = arrTy → ev.2.2 < st.assignments.length) →
      (∀ v ∈ st.free_rooms, v ≤ st.max_id) →
      (∀ v ∈ st.assignments, v ≤ st.max_id) →
      (∀ kk : Nat, 1 ≤ kk → kk ≤ st.max_id →
        ∃ j, st.assignments.get? j = some kk ∧
          ∀ ev ∈ evs, ev.2.1 = arrTy → ev.2.2 ≠ j) →
      (∀ v ∈ (evs.foldl (sweepStep arrTy) st).assignments,
        v ≤ (evs.foldl (sweepStep arrTy) st).max_id) ∧
      (∀ kk : Nat, 1 ≤ kk → kk ≤ (evs.foldl (sweepStep arrTy) st).max_id →
        kk ∈ (evs.foldl (sweepStep arrTy) st).assignments) := by
  intro evs
  induction evs with
  | nil =>
    intro st _ _ _ hassign hwit
    refine ⟨hassign, ?_⟩
    intro kk h1 h2
    obtain ⟨j, hj, -⟩ := hwit kk h1 h2
    exact List.get?_mem hj
  | cons ev rest ih =>
    intro st hnodup hbound hpool hassign hwit
    rw [List.foldl_cons]
    by_cases hty : ev.2.1 = arrTy
    · have hfilter : (ev :: rest).filter (fun e => e.2.1 == arrTy)
          = ev :: rest.filter (fun e => e.2.1 == arrTy) := by
        rw [List.filter_cons, if_pos (by simp [hty])]
      rw [hfilter, List.map_cons] at hnodup
      have hnotin := (List.nodup_cons.mp hnodup).1
      have hnodup' := (List.nodup_cons.mp hnodup).2
      have hne_rest : ∀ e ∈ rest, e.2.1 = arrTy → e.2.2 ≠ ev.2.2 := by
        intro e he hety heq
        exact hnotin (heq ▸ List.mem_map.mpr
          ⟨e, List.mem_filter.mpr ⟨he, by simp [hety]⟩, rfl⟩)
      cases hpop : popMin st.free_rooms with
      | some p =>
        obtain ⟨m, rest'⟩ := p
        obtain ⟨hperm, hmin⟩ := popMin_spec hpop
        have hm_le : m ≤ st.max_id :=
          hpool m (hperm.mem_iff.mpr (List.mem_cons_self _ _))
        have hstep : sweepStep arrTy st ev
            = { st with assignments := st.assignments.set ev.2.2 m,
                        free_rooms := rest' } := by
          unfold sweepStep; rw [if_pos hty, hpop]
        rw [hstep]
        apply ih
        · exact hnodup'
        · intro e he hety
          have := hbound e (List.mem_cons_of_mem _ he) hety
          simpa using this
        · intro v hv
          exact hpool v (hperm.mem_iff.mpr (List.mem_cons_of_mem _ hv))
        · intro v hv
          rcases List.mem_or_eq_of_mem_set hv with hv' | rfl
          · exact hassign v hv'
          · exact hm_le
        · intro kk h1 h2
          obtain ⟨j, hj, hj2⟩ := hwit kk h1 h2
          have hjne : ev.2.2 ≠ j := hj2 ev (List.mem_cons_self _ _) hty
          refine ⟨j, ?_, fun e he hety => hj2 e (List.mem_cons_of_mem _ he) hety⟩
          rw [List.get?_set_ne _ _ hjne]
          exact hj
      | none =>
        have hnil := (popMin_eq_none_iff _).mp hpop
        have hstep : sweepStep arrTy st ev
            = { st with assignments := st.assignments.set ev.2.2 (st.max_id + 1),
                        max_id := st.max_id + 1 } := by
          unfold sweepStep; rw [if_pos hty, hpop]
        rw [hstep]
        apply ih
        · exact hnodup'
        · intro e he hety
          have := hbound e (List.mem_cons_of_mem _ he) hety
          simpa using this
        · intro v hv
          have hv' : v ∈ st.free_rooms := hv
          rw [hnil] at hv'
          exact absurd hv' (by simp)
        · intro v hv
          rcases List.mem_or_eq_of_mem_set hv with hv' | rfl
          · exact le_trans (hassign v hv') (Nat.le_succ _)
          · exact le_refl _
        · intro kk h1 h2
          by_cases hkk : kk ≤ st.max_id
          · obtain ⟨j, hj, hj2⟩ := hwit kk h1 hkk
            have hjne : ev.2.2 ≠ j := hj2 ev (List.mem_cons_self _ _) hty
            refine ⟨j, ?_, fun e he hety => hj2 e (List.mem_cons_of_mem _ he) hety⟩
            rw [List.get?_set_ne _ _ hjne]
            exact hj
          · have hkk' : kk = st.max_id + 1 := by
              have h2' : kk ≤ st.max_id + 1 := h2
              omega
            subst hkk'
            refine ⟨ev.2.2, ?_, fun e he hety => hne_rest e he hety⟩
            exact get?_set_self (hbound ev (List.mem_cons_self _ _) hty)
    · have hstep : sweepStep arrTy st ev
          = { st with free_rooms := st.assignments.getD ev.2.2 0 :: st.free_rooms } := by
        unfold sweepStep; rw [if_neg hty]
      rw [hstep]
      apply ih
      · rw [List.filter_cons, if_neg (by simp [hty])] at hnodup
        exact hnodup
      · intro e he hety
        exact hbound e (List.mem_cons_of_mem _ he) hety
      · intro v hv
        rcases List.mem_cons.mp hv with rfl | hv'
        · rcases getD_zero_mem st.assignments ev.2.2 with h0 | hmem
          · rw [h0]; exact Nat.zero_le _
          · exact hassign _ hmem
        · exact hpool v hv'
      · exact hassign
      · intro kk h1 h2
        obtain ⟨j, hj, hj2⟩ := hwit kk h1 h2
        exact ⟨j, hj, fun e he hety => hj2 e (List.mem_cons_of_mem _ he) hety⟩

theorem runSweep_distinct (arrTy n : Nat) (S : List Event)
    (hnodup : ((S.filter (fun ev => ev.2.1 == arrTy)).map (fun ev => ev.2.2)).Nodup)
    (hbound : ∀ ev ∈ S, ev.2.1 = arrTy → ev.2.2 < n) :
    distinctIds (runSweep arrTy n S) = (S.foldl (tally arrTy) (0, 0)).1 := by
  have hM : (S.foldl (sweepStep arrTy) (initState n)).max_id
      = (S.foldl (tally arrTy) (0, 0)).1 :=
    foldl_sweepStep_tally arrTy S (initState n) 0 (by simp [initState]) (by simp [initState])
  obtain ⟨hub, hcover⟩ := foldl_sweepStep_ids arrTy S (initState n)
    hnodup
    (by intro ev hev ht
        have := hbound ev hev ht
        simpa [initState] using this)
    (by intro v hv; simp [initState] at hv)
    (by intro v hv
        simp only [initState] at hv
        rw [List.eq_of_mem_replicate hv]
        exact Nat.zero_le _)
    (by intro kk h1 h2
        simp only [initState] at h2
        omega)
  set M := (S.foldl (tally arrTy) (0, 0)).1 with hMdef
  set out := (S.foldl (sweepStep arrTy) (initState n)).assignments with houtdef
  show (out.filter (fun v => v != 0)).dedup.length = M
  have h1 : (out.filter (fun v => v != 0)).dedup.length
      = (out.filter (fun v => v != 0)).toFinset.card := (List.card_toFinset _).symm
  have h2 : (out.filter (fun v => v != 0)).toFinset = Finset.Icc 1 M := by
    ext v
    simp only [List.mem_toFinset, List.mem_filter, Finset.mem_Icc, bne_iff_ne, ne_eq]
    constructor
    · rintro ⟨hv, hvne⟩
      have hle := hub v hv
      rw [hM] at hle
      exact ⟨by omega, hle⟩
    · rintro ⟨h1v, h2v⟩
      refine ⟨hcover v h1v (by rw [hM]; exact h2v), by omega⟩
  rw [h1, h2, Nat.card_Icc]
  omega

/-! ### C2: tally fold arithmetic -/

theorem foldl_tally_fst_mono (a : Nat) (l : List Event) :
    ∀ p : Nat × Int, p.1 ≤ (l.foldl (tally a) p).1 := by
  induction l with
  | nil => intro p; exact le_refl _
  | cons ev rest ih =>
    intro p
    refine le_trans ?_ (ih (tally a p ev))
    unfold tally
    split
    · exact Nat.le_max_left _ _
    · exact le_refl _

theorem foldl_tally_snd (a : Nat) (l : List Event) :
    ∀ (m : Nat) (x : Int), (l.foldl (tally a) (m, x)).2 = x + excess a l := by
  induction l with
  | nil =>
    intro m x
    show x = x + excess a []
    unfold excess
    simp
  | cons ev rest ih =>
    intro m x
    rw [List.foldl_cons, excess_cons]
    by_cases h : ev.2.1 = a
    · have hstep : tally a (m, x) ev = (max m (x + 1).toNat, x + 1) := by
        unfold tally; rw [if_pos h]
      rw [hstep, ih, if_pos h]
      ring
    · have hstep : tally a (m, x) ev = (m, x - 1) := by
        unfold tally; rw [if_neg h]
      rw [hstep, ih, if_neg h]
      ring

theorem foldl_tally_snd_le_fst (a : Nat) (l : List Event) :
    ∀ (m : Nat) (x : Int), x ≤ (m : Int) →
      (l.foldl (tally a) (m, x)).2 ≤ ((l.foldl (tally a) (m, x)).1 : Int) := by
  induction l with
  | nil => intro m x h; exact h
  | cons ev rest ih =>
    intro m x h
    rw [List.foldl_cons]
    by_cases hty : ev.2.1 = a
    · have hstep : tally a (m, x) ev = (max m (x + 1).toNat, x + 1) := by
        unfold tally; rw [if_pos hty]
      rw [hstep]
      apply ih
      have h1 : (x + 1).toNat ≤ max m (x + 1).toNat := Nat.le_max_right _ _
      omega
    · have hstep : tally a (m, x) ev = (m, x - 1) := by
        unfold tally; rw [if_neg hty]
      rw [hstep]
      apply ih
      omega

/-! ### C2: downward-closed cuts of a sorted stream are prefixes -/

theorem sorted_filter_eq_takeWhile {pt : Event → Bool}
    (hdc : ∀ a b : Event, eventLE a b → pt b = true → pt a = true) :
    ∀ {l : List Event}, List.Sorted eventLE l → l.filter pt = l.takeWhile pt := by
  intro l
  induction l with
  | nil => intro _; rfl
  | cons a l ih =>
    intro hsort
    have hrel := List.rel_of_sorted_cons hsort
    have hsort' := hsort.of_cons
    rw [List.filter_cons, List.takeWhile_cons]
    cases hpa : pt a with
    | true => simp only [if_true, ih hsort']
    | false =>
      simp only [Bool.false_eq_true, if_false]
      exact List.filter_eq_nil_iff.mpr
        (fun b hb hptb => by
          have := hdc a b (hrel b hb) (by simpa using hptb)
          rw [hpa] at this
          exact absurd this (by simp))

theorem sorted_cut_decomp {pt : Event → Bool}
    (hdc : ∀ a b : Event, eventLE a b → pt b = true → pt a = true)
    {l : List Event} (hsort : List.Sorted eventLE l) :
    ∃ q, l = l.filter pt ++ q := by
  refine ⟨l.dropWhile pt, ?_⟩
  rw [sorted_filter_eq_takeWhile hdc hsort, List.takeWhile_append_dropWhile]

theorem cutPred_false_eq (t : Int) (ev : Event) :
    cutPred false t ev = decide (ev.1 ≤ t) := rfl

theorem cutPred_true_eq (t : Int) (ev : Event) :
    cutPred true t ev
      = (decide (ev.1 < t) || (decide (ev.1 = t) && (ev.2.1 == 0))) := rfl

theorem openAt_false_eq (t : Int) (tr : Nat × Int × Int) :
    openAt false t tr = (decide (tr.2.1 ≤ t) && decide (t < tr.2.2)) := rfl

theorem openAt_true_eq (t : Int) (tr : Nat × Int × Int) :
    openAt true t tr = (decide (tr.2.1 ≤ t) && decide (t ≤ tr.2.2)) := rfl

theorem cutPred_downward (ov : Bool) (t : Int) :
    ∀ a b : Event, eventLE a b → cutPred ov t b = true → cutPred ov t a = true := by
  intro a b hab hb
  unfold eventLE at hab
  cases ov
  · rw [cutPred_false_eq] at hb ⊢
    rw [decide_eq_true_eq] at hb ⊢
    omega
  · rw [cutPred_true_eq] at hb ⊢
    simp only [Bool.or_eq_true, Bool.and_eq_true, decide_eq_true_eq,
      beq_iff_eq] at hb ⊢
    omega

/-! ### C2: counting the cut via the interval triples -/

theorem excess_nil (a : Nat) : excess a [] = 0 := by
  unfold excess; rfl

theorem excess_filter_eventsOf {a d : Nat} (hne : a ≠ d) (pt : Event → Bool) :
    ∀ trs : List (Nat × Int × Int),
      excess a ((eventsOf a d trs).filter pt)
        = ((trs.countP (fun tr => pt (arrEv a tr)) : Int))
          - (trs.countP (fun tr => pt (depEv d tr)) : Int) := by
  intro trs
  induction trs with
  | nil =>
    show excess a (List.filter pt []) = _
    rw [List.filter_nil, excess_nil]
    rfl
  | cons tr rest ih =>
    show excess a (List.filter pt (arrEv a tr :: depEv d tr :: eventsOf a d rest)) = _
    rw [List.filter_cons, List.filter_cons, List.countP_cons, List.countP_cons]
    have harr : (arrEv a tr).2.1 = a := rfl
    have hdep : (depEv d tr).2.1 ≠ a := Ne.symm hne
    by_cases h1 : pt (arrEv a tr) = true
    · by_cases h2 : pt (depEv d tr) = true
      · simp only [if_pos h1, if_pos h2]
        rw [excess_cons, excess_cons, if_pos harr, if_neg hdep, ih]
        push_cast
        ring
      · simp only [if_pos h1, if_neg h2]
        rw [excess_cons, if_pos harr, ih]
        push_cast
        ring
    · by_cases h2 : pt (depEv d tr) = true
      · simp only [if_neg h1, if_pos h2]
        rw [excess_cons, if_neg hdep, ih]
        push_cast
        ring
      · simp only [if_neg h1, if_neg h2]
        rw [ih]
        push_cast
        ring

theorem cut_counts (ov : Bool) (t : Int) :
    ∀ trs : List (Nat × Int × Int), (∀ tr ∈ trs, tr.2.1 ≤ tr.2.2) →
      ((trs.countP (fun tr => cutPred ov t (arrEv (arrT ov) tr)) : Int))
        - (trs.countP (fun tr => cutPred ov t (depEv (depT ov) tr)) : Int)
        = (trs.countP (openAt ov t) : Int) := by
  intro trs
  induction trs with
  | nil => intro _; rfl
  | cons tr rest ih =>
    intro hval
    have hval' : ∀ tr' ∈ rest, tr'.2.1 ≤ tr'.2.2 :=
      fun tr' h => hval tr' (List.mem_cons_of_mem _ h)
    have hse := hval tr (List.mem_cons_self _ _)
    rw [List.countP_cons, List.countP_cons, List.countP_cons]
    have hih := ih hval'
    obtain ⟨i, s, e⟩ := tr
    have hcompute :
        ((if cutPred ov t (arrEv (arrT ov) (i, s, e)) = true then 1 else 0) : Int)
          - (if cutPred ov t (depEv (depT ov) (i, s, e)) = true then 1 else 0)
          = (if openAt ov t (i, s, e) = true then 1 else 0) := by
      have hse' : s ≤ e := hse
      cases ov
      all_goals simp [cutPred, openAt, arrEv, depEv, arrT, depT]
      all_goals split_ifs <;> omega
    push_cast
    push_cast at hih hcompute
    omega

/-! ### C2: counting distinct elements through `toFinset` -/

theorem length_eq_of_nodup_same_mem {l1 l2 : List Event}
    (h1 : l1.Nodup) (h2 : l2.Nodup) (hm : ∀ x, x ∈ l1 ↔ x ∈ l2) :
    l1.length = l2.length := by
  rw [← List.toFinset_card_of_nodup h1, ← List.toFinset_card_of_nodup h2]
  congr 1
  ext x
  simp only [List.mem_toFinset]
  exact hm x

theorem length_le_of_nodup_subset {l1 l2 : List Event}
    (h1 : l1.Nodup) (hm : ∀ x ∈ l1, x ∈ l2) : l1.length ≤ l2.length := by
  rw [← List.toFinset_card_of_nodup h1]
  refine le_trans (Finset.card_le_card ?_) l2.toFinset_card_le
  intro x hx
  rw [List.mem_toFinset] at hx ⊢
  exact hm x hx

theorem arr_idx_nodup_of_perm {a d : Nat} (hne : a ≠ d) {S : List Event}
    {trs : List (Nat × Int × Int)} (hperm : S.Perm (eventsOf a d trs))
    (hfst : (trs.map Prod.fst).Nodup) :
    ((S.filter (fun ev => ev.2.1 == a)).map (fun ev => ev.2.2)).Nodup := by
  have h2 := (hperm.filter (fun ev => ev.2.1 == a)).map (fun ev => ev.2.2)
  rw [filter_isArr_eventsOf hne] at h2
  have h3 : (trs.map (arrEv a)).map (fun ev => ev.2.2) = trs.map Prod.fst := by
    rw [List.map_map]; rfl
  rw [h3] at h2
  exact h2.nodup_iff.mpr hfst

/-! ### C2: the running maximum is attained at an arrival prefix -/

theorem tally_max_achieved (a : Nat) (l : List Event) :
    ∀ (m : Nat) (x : Int),
      (l.foldl (tally a) (m, x)).1 = m ∨
        ∃ p ev q, l = p ++ ev :: q ∧ ev.2.1 = a ∧
          (((l.foldl (tally a) (m, x)).1 : Int)) = x + excess a (p ++ [ev]) := by
  induction l with
  | nil => intro m x; exact Or.inl rfl
  | cons ev rest ih =>
    intro m x
    by_cases hty : ev.2.1 = a
    · have hstep : tally a (m, x) ev = (max m (x + 1).toNat, x + 1) := by
        unfold tally; rw [if_pos hty]
      rw [List.foldl_cons, hstep]
      have hexc : excess a [ev] = 1 := by
        rw [excess_cons, if_pos hty, excess_nil]
        ring
      rcases ih (max m (x + 1).toNat) (x + 1) with hfold | ⟨p, ev', q, hdec, hty', hval⟩
      · by_cases hle : (x + 1).toNat ≤ m
        · left
          rw [hfold]
          exact Nat.max_eq_left hle
        · right
          refine ⟨[], ev, rest, rfl, hty, ?_⟩
          rw [hfold]
          show ((max m (x + 1).toNat : Nat) : Int) = x + excess a ([ev])
          rw [hexc, Nat.max_eq_right (by omega)]
          omega
      · right
        refine ⟨ev :: p, ev', q, by rw [hdec]; rfl, hty', ?_⟩
        rw [hval]
        show x + 1 + excess a (p ++ [ev']) = x + excess a ((ev :: p) ++ [ev'])
        rw [List.cons_append, excess_cons, if_pos hty]
        ring
    · have hstep : tally a (m, x) ev = (m, x - 1) := by
        unfold tally; rw [if_neg hty]
      rw [List.foldl_cons, hstep]
      rcases ih m (x - 1) with hfold | ⟨p, ev', q, hdec, hty', hval⟩
      · exact Or.inl hfold
      · right
        refine ⟨ev :: p, ev', q, by rw [hdec]; rfl, hty', ?_⟩
        rw [hval]
        show x - 1 + excess a (p ++ [ev']) = x + excess a ((ev :: p) ++ [ev'])
        rw [List.cons_append, excess_cons, if_neg hty]
        ring

/-! ### C2: a coordinate below every start has zero open intervals -/

theorem foldr_min_le (l : List Int) : ∀ s ∈ l, l.foldr min 0 ≤ s := by
  induction l with
  | nil => intro s hs; exact absurd hs (by simp)
  | cons x l ih =>
    intro s hs
    rcases List.mem_cons.mp hs with rfl | hs
    · exact min_le_left _ _
    · exact le_trans (min_le_right _ _) (ih s hs)

theorem exists_openCount_zero (ov : Bool) (trs : List (Nat × Int × Int)) :
    ∃ t : Int, trs.countP (openAt ov t) = 0 := by
  refine ⟨(trs.map (fun tr => tr.2.1)).foldr min 0 - 1, ?_⟩
  rw [List.countP_eq_zero]
  intro tr htr
  have hmin : (trs.map (fun tr => tr.2.1)).foldr min 0 ≤ tr.2.1 :=
    foldr_min_le _ _ (List.mem_map.mpr ⟨tr, htr, rfl⟩)
  unfold openAt
  simp only [Bool.and_eq_true, decide_eq_true_eq, not_and]
  intro hle
  omega

/-! ### C2: an arrival-ending prefix opens at most `openCount` intervals -/

theorem excess_arrival_cut_le (ov : Bool) {trs : List (Nat × Int × Int)}
    (hval : ∀ tr ∈ trs, tr.2.1 ≤ tr.2.2)
    (hfst : (trs.map Prod.fst).Nodup)
    {S p q : List Event} {ev : Event}
    (hperm : S.Perm (eventsOf (arrT ov) (depT ov) trs))
    (hsort : List.Sorted eventLE S)
    (hnodup : S.Nodup)
    (hdec : S = p ++ ev :: q) (hty : ev.2.1 = arrT ov) :
    excess (arrT ov) (p ++ [ev]) ≤ (trs.countP (openAt ov ev.1) : Int) := by
  have hne : arrT ov ≠ depT ov := by cases ov <;> simp [arrT, depT]
  have htrs_nodup : trs.Nodup := List.Nodup.of_map _ hfst
  have hinj : ∀ tr1 ∈ trs, ∀ tr2 ∈ trs, tr1.1 = tr2.1 → tr1 = tr2 :=
    fun tr1 h1 tr2 h2 h12 => List.inj_on_of_nodup_map hfst h1 h2 h12
  have hPsub : List.Sublist (p ++ [ev]) S := by
    rw [hdec]
    exact (List.cons_sublist_cons.mpr (List.nil_sublist q)).append_left p
  have hPnodup : (p ++ [ev]).Nodup := hPsub.nodup hnodup
  have hPmemS : ∀ x ∈ p ++ [ev], x ∈ S := fun x hx => hPsub.subset hx
  have hsort' : List.Pairwise eventLE (p ++ ev :: q) := by rw [← hdec]; exact hsort
  obtain ⟨hsp, hsq, hcross⟩ := List.pairwise_append.mp hsort'
  have hevq : ∀ y ∈ q, eventLE ev y := (List.pairwise_cons.mp hsq).1
  have harr : (p ++ [ev]).countP (fun e' => e'.2.1 == arrT ov)
      = trs.countP (fun tr => decide (arrEv (arrT ov) tr ∈ p ++ [ev])) := by
    rw [List.countP_eq_length_filter, List.countP_eq_length_filter,
      ← List.length_map
        (trs.filter (fun tr => decide (arrEv (arrT ov) tr ∈ p ++ [ev])))
        (arrEv (arrT ov))]
    apply length_eq_of_nodup_same_mem
    · exact hPnodup.filter _
    · refine List.Nodup.map_on ?_ (htrs_nodup.filter _)
      intro x hx y hy hxy
      exact hinj x (List.mem_of_mem_filter hx) y (List.mem_of_mem_filter hy)
        (congrArg (fun e' : Event => e'.2.2) hxy)
    · intro x
      constructor
      · intro hx
        obtain ⟨hxP, hxarr⟩ := List.mem_filter.mp hx
        have hxS : x ∈ eventsOf (arrT ov) (depT ov) trs :=
          hperm.mem_iff.mp (hPmemS x hxP)
        obtain ⟨tr, htr, hcase⟩ := mem_eventsOf.mp hxS
        rcases hcase with rfl | rfl
        · exact List.mem_map.mpr ⟨tr, List.mem_filter.mpr ⟨htr, by simpa using hxP⟩, rfl⟩
        · have hda : depT ov = arrT ov := by simpa using hxarr
          exact absurd hda (Ne.symm hne)
      · intro hx
        obtain ⟨tr, htr2, rfl⟩ := List.mem_map.mp hx
        obtain ⟨htr, hmem⟩ := List.mem_filter.mp htr2
        exact List.mem_filter.mpr ⟨by simpa using hmem, by simp [arrEv]⟩
  have hdep : trs.countP (fun tr => decide (arrEv (arrT ov) tr ∈ p ++ [ev])
        && decide (depEv (depT ov) tr ∈ p ++ [ev]))
      ≤ (p ++ [ev]).countP (fun e' => e'.2.1 != arrT ov) := by
    rw [List.countP_eq_length_filter, List.countP_eq_length_filter,
      ← List.length_map
        (trs.filter (fun tr => decide (arrEv (arrT ov) tr ∈ p ++ [ev])
          && decide (depEv (depT ov) tr ∈ p ++ [ev])))
        (depEv (depT ov))]
    apply length_le_of_nodup_subset
    · refine List.Nodup.map_on ?_ (htrs_nodup.filter _)
      intro x hx y hy hxy
      exact hinj x (List.mem_of_mem_filter hx) y (List.mem_of_mem_filter hy)
        (congrArg (fun e' : Event => e'.2.2) hxy)
    · intro x hx
      obtain ⟨tr, htr2, rfl⟩ := List.mem_map.mp hx
      obtain ⟨htr, hmem⟩ := List.mem_filter.mp htr2
      simp only [Bool.and_eq_true, decide_eq_true_eq] at hmem
      refine List.mem_filter.mpr ⟨hmem.2, ?_⟩
      simpa [depEv, bne_iff_ne] using Ne.symm hne
  have hsplit := countP_split trs
    (fun tr => decide (arrEv (arrT ov) tr ∈ p ++ [ev]))
    (fun tr => decide (depEv (depT ov) tr ∈ p ++ [ev]))
  have hopen : trs.countP (fun tr => decide (arrEv (arrT ov) tr ∈ p ++ [ev])
        && !decide (depEv (depT ov) tr ∈ p ++ [ev]))
      ≤ trs.countP (openAt ov ev.1) := by
    apply List.countP_mono_left
    intro tr htr hcond
    simp only [Bool.and_eq_true, Bool.not_eq_true', decide_eq_true_eq,
      decide_eq_false_iff_not] at hcond
    obtain ⟨hArrP, hDepNotP⟩ := hcond
    have hle1 : eventLE (arrEv (arrT ov) tr) ev := by
      rcases List.mem_append.mp hArrP with hp | hev1
      · exact hcross _ hp _ (List.mem_cons_self _ _)
      · have heq : arrEv (arrT ov) tr = ev := by simpa using hev1
        rw [heq]
        exact eventLE_refl ev
    have hDepS : depEv (depT ov) tr ∈ p ++ ev :: q := by
      rw [← hdec]
      exact hperm.mem_iff.mpr (mem_eventsOf.mpr ⟨tr, htr, Or.inr rfl⟩)
    have hDepq : depEv (depT ov) tr ∈ q := by
      rcases List.mem_append.mp hDepS with hp | hq2
      · exact absurd (List.mem_append_left _ hp) hDepNotP
      · rcases List.mem_cons.mp hq2 with heq | hq3
        · have htyeq : depT ov = arrT ov := by
            have h' : (depEv (depT ov) tr).2.1 = ev.2.1 :=
              congrArg (fun e' : Event => e'.2.1) heq
            rw [hty] at h'
            exact h'
          exact absurd htyeq (Ne.symm hne)
        · exact hq3
    have hle2 : eventLE ev (depEv (depT ov) tr) := hevq _ hDepq
    have hse := hval tr htr
    obtain ⟨i, s, e⟩ := tr
    obtain ⟨tev, tyev, ixev⟩ := ev
    unfold eventLE at hle1 hle2
    simp only [arrEv, depEv] at hle1 hle2
    dsimp only at hle1 hle2 hse hty ⊢
    cases ov
    · have ha : arrT false = 1 := rfl
      have hd : depT false = 0 := rfl
      rw [ha] at hle1 hty
      rw [hd] at hle2
      rw [openAt_false_eq]
      simp only [Bool.and_eq_true, decide_eq_true_eq]
      omega
    · have ha : arrT true = 0 := rfl
      have hd : depT true = 1 := rfl
      rw [ha] at hle1 hty
      rw [hd] at hle2
      rw [openAt_true_eq]
      simp only [Bool.and_eq_true, decide_eq_true_eq]
      omega
  unfold excess
  omega

/-- C2: for every successful call, the number of distinct resource ids in
the output (resource ids are `≥ 1`; the sentinel `0` of skipped intervals
is not one) equals the maximum number of valid intervals simultaneously
open under the active overlapping policy — half-open `s ≤ t < e` for
`overlapping = false`, closed `s ≤ t ≤ e` for `overlapping = true` — that
is, the interval-graph chromatic number: the count of open intervals at
every coordinate `t` is bounded by it, and some coordinate attains it. -/
theorem claim_C2_minimality (starts ends : List (Option Int)) (ov : Bool) (out : List Nat)
    (h : assign starts ends ov = .ok out) :
    (∀ t : Int, openCount starts ends ov t ≤ distinctIds out) ∧
    (∃ t : Int, openCount starts ends ov t = distinctIds out) := by
  obtain ⟨evs, hb, rfl⟩ := assign_ok_inv h
  have hne : arrT ov ≠ depT ov := by cases ov <;> simp [arrT, depT]
  have hEvs : evs = eventsOf (arrT ov) (depT ov) (validTriples 0 (starts.zip ends)) :=
    buildEvents_ok_eventsOf hb
  have hval := buildEvents_ok_valid hb
  have hfst : ((validTriples 0 (starts.zip ends)).map Prod.fst).Nodup :=
    validTriples_fst_nodup
  have hSperm : (sortEvents evs).Perm
      (eventsOf (arrT ov) (depT ov) (validTriples 0 (starts.zip ends))) :=
    hEvs ▸ sortEvents_perm evs
  have hSsort := sortEvents_sorted evs
  have hSnodup : (sortEvents evs).Nodup :=
    ((sortEvents_perm evs).nodup_iff).mpr (buildEvents_nodup hne hb)
  have hnodupArr := arr_idx_nodup_of_perm hne hSperm hfst
  have hbound : ∀ ev ∈ sortEvents evs, ev.2.1 = arrT ov → ev.2.2 < starts.length := by
    intro ev hev _
    have hmem : ev ∈ evs := (sortEvents_perm evs).subset hev
    have hidx := (buildEvents_idx_bound hb ev hmem).2
    have hz : (starts.zip ends).length ≤ starts.length := by
      rw [List.length_zip]
      exact min_le_left _ _
    omega
  have hD : distinctIds (runSweep (arrT ov) starts.length (sortEvents evs))
      = ((sortEvents evs).foldl (tally (arrT ov)) (0, 0)).1 :=
    runSweep_distinct _ _ _ hnodupArr hbound
  have hupper : ∀ t : Int, (validTriples 0 (starts.zip ends)).countP (openAt ov t)
      ≤ ((sortEvents evs).foldl (tally (arrT ov)) (0, 0)).1 := by
    intro t
    obtain ⟨q, hq⟩ := sorted_cut_decomp (cutPred_downward ov t) hSsort
    have hexc : excess (arrT ov) ((sortEvents evs).filter (cutPred ov t))
        = ((validTriples 0 (starts.zip ends)).countP (openAt ov t) : Int) := by
      have hp : excess (arrT ov) ((sortEvents evs).filter (cutPred ov t))
          = excess (arrT ov)
              ((eventsOf (arrT ov) (depT ov)
                (validTriples 0 (starts.zip ends))).filter (cutPred ov t)) := by
        unfold excess
        rw [(hSperm.filter _).countP_eq, (hSperm.filter _).countP_eq]
      rw [hp, excess_filter_eventsOf hne, cut_counts ov t _ hval]
    have h1 := foldl_tally_snd_le_fst (arrT ov)
      ((sortEvents evs).filter (cutPred ov t)) 0 0 (by norm_num)
    have h2 := foldl_tally_snd (arrT ov)
      ((sortEvents evs).filter (cutPred ov t)) 0 0
    have h3 : (((sortEvents evs).filter (cutPred ov t)).foldl (tally (arrT ov)) (0, 0)).1
        ≤ ((sortEvents evs).foldl (tally (arrT ov)) (0, 0)).1 := by
      conv_rhs => rw [hq]
      rw [List.foldl_append]
      exact foldl_tally_fst_mono _ _ _
    rw [hexc] at h2
    omega
  constructor
  · intro t
    rw [hD]
    exact hupper t
  · rcases tally_max_achieved (arrT ov) (sortEvents evs) 0 0 with
      hzero | ⟨p, ev, q, hdec, hty, hvalfst⟩
    · obtain ⟨t0, ht0⟩ := exists_openCount_zero ov (validTriples 0 (starts.zip ends))
      refine ⟨t0, ?_⟩
      show (validTriples 0 (starts.zip ends)).countP (openAt ov t0) = _
      rw [ht0, hD, hzero]
    · have hle1 := excess_arrival_cut_le ov hval hfst hSperm hSsort hSnodup hdec hty
      have hle2 := hupper ev.1
      refine ⟨ev.1, ?_⟩
      show (validTriples 0 (starts.zip ends)).countP (openAt ov ev.1) = _
      rw [hD]
      omega

/-- Witness for C2 at the spec's first example. -/
theorem claim_C2_minimality_witness :
    (∀ t : Int,
      openCount [some 10, some 20] [some 20, some 30] false t ≤ distinctIds [1, 1]) ∧
    (∃ t : Int,
      openCount [some 10, some 20] [some 20, some 30] false t = distinctIds [1, 1]) :=
  claim_C2_minimality [some 10, some 20] [some 20, some 30] false [1, 1] rfl

/-- Witness for C7 at the spec's example input. -/
theorem claim_C7_deterministic_sort_witness :
    ([(10, 1, 0), (20, 0, 0), (20, 1, 1), (30, 0, 1)] : List Event).Nodup ∧
    (sortEvents [(10, 1, 0), (20, 0, 0), (20, 1, 1), (30, 0, 1)]).Perm
      [(10, 1, 0), (20, 0, 0), (20, 1, 1), (30, 0, 1)] ∧
    List.Sorted eventLE (sortEvents [(10, 1, 0), (20, 0, 0), (20, 1, 1), (30, 0, 1)]) ∧
    [(10, 1, 0), (20, 0, 0), (20, 1, 1), (30, 0, 1)]
      = sortEvents [(10, 1, 0), (20, 0, 0), (20, 1, 1), (30, 0, 1)] := by
  have T := claim_C7_deterministic_sort [some 10, some 20] [some 20, some 30] false
    [(10, 1, 0), (20, 0, 0), (20, 1, 1), (30, 0, 1)] rfl
  exact ⟨T.1, T.2.1, T.2.2.1, T.2.2.2 _ (List.Perm.refl _) (by decide)⟩

end SweepLine
